import Mathlib

/-!
Verification of the fb2rename tool (file `__main__.py`) against its
natural-language specification.

Strings are modelled as `List Char` (Python `str` is a sequence of code
points).  File-system paths that only ever get concatenated and compared are
modelled as `String`.  All definitions are shallow embeddings of the Python
functions of the same name.
-/

namespace Fb2Rename

/-! ## String sanitizer (`clean_string`, `SANITIZE_REGEXS`) -/

/-- Characters stripped by Python `str.strip()` (`str.isspace()` characters).
The exact extent of the Unicode white-space set is irrelevant to the claims;
the ASCII white-space characters and the common Unicode ones are listed. -/
def isPySpace (c : Char) : Bool :=
  c = ' ' || c = '\t' || c = '\n' || c = '\x0b' || c = '\x0c' || c = '\r' ||
  c = '\x1c' || c = '\x1d' || c = '\x1e' || c = '\x1f' ||
  c = '\x85' || c = '\xa0'

/-- Python `s.strip()`: drop leading and trailing white-space. -/
def pyStrip (s : List Char) : List Char :=
  (((s.dropWhile isPySpace).reverse).dropWhile isPySpace).reverse

/-- The character class `[а-яА-Яa-zA-Z0-9 \.,-]` of the second sanitize
regex: Cyrillic letters а–я / А–Я, Latin letters, ASCII digits, space,
period, comma, hyphen.  (Python character ranges compare code points, as
`Char` comparison does here; `ё`/`Ё` fall outside а-я/А-Я.) -/
def allowedChar (c : Char) : Bool :=
  ('а' ≤ c && c ≤ 'я') || ('А' ≤ c && c ≤ 'Я') ||
  ('a' ≤ c && c ≤ 'z') || ('A' ≤ c && c ≤ 'Z') ||
  c.isDigit || c = ' ' || c = '.' || c = ',' || c = '-'

/-- Effect of `re.sub('^\d+\)', '', s)`: remove a leading run of one or more
digits followed by a closing parenthesis.  The anchor `^` (without
`re.MULTILINE`) allows at most one substitution; the greedy `\d+` can only
match the maximal digit run, since any shorter run is followed by a digit,
not by `)`.  (`\d` matches Unicode decimal digits; only ASCII digits occur in
the allow-list, and no claim distinguishes the wider set.) -/
def stripLeadingNumParen (s : List Char) : List Char :=
  match s.dropWhile Char.isDigit with
  | ')' :: t => if s.takeWhile Char.isDigit = [] then s else t
  | _ => s

/-- The cleaning pipeline applied to a non-empty string: strip, remove a
leading numbering mark, remove every disallowed character
(`re.sub('[^а-яА-Яa-zA-Z0-9 \.,-]', '', s)` removes all occurrences, i.e.
filters), strip again. -/
def cleanChars (s : List Char) : List Char :=
  pyStrip ((stripLeadingNumParen (pyStrip s)).filter allowedChar)

/-- `clean_string` on a `str` argument: `if not s` is the empty-string test;
the pair returned is `(new_s, s != new_s)`. -/
def clean_string (s : List Char) : List Char × Bool :=
  if s = [] then ([], false)
  else (cleanChars s, decide (s ≠ cleanChars s))

/-- `clean_string` on a `list` argument (the form used by `file_info`):
`if not s` is the empty-list test, then `s = s[0]` takes the first element
and the string pipeline runs on it. -/
def clean_string_list (l : List (List Char)) : List Char × Bool :=
  match l with
  | [] => ([], false)
  | s :: _ => (cleanChars s, decide (s ≠ cleanChars s))

/-! ### Sanitizer lemmas -/

theorem dropWhile_head_false (p : α → Bool) (l : List α) {a : α} {t : List α}
    (h : l.dropWhile p = a :: t) : p a = false := by
  induction l with
  | nil => simp at h
  | cons x xs ih =>
      rw [List.dropWhile_cons] at h
      cases hpx : p x with
      | true => simp [hpx] at h; exact ih h
      | false =>
          simp [hpx] at h
          obtain ⟨rfl, -⟩ := h
          exact hpx

theorem dropWhile_idem (p : α → Bool) (l : List α) :
    (l.dropWhile p).dropWhile p = l.dropWhile p := by
  cases h : l.dropWhile p with
  | nil => simp
  | cons a t =>
      have ha : p a = false := dropWhile_head_false p l h
      simp [List.dropWhile_cons, ha]

theorem mem_pyStrip {c : Char} {s : List Char} (h : c ∈ pyStrip s) : c ∈ s := by
  unfold pyStrip at h
  rw [List.mem_reverse] at h
  have h2 := (List.dropWhile_sublist isPySpace).subset h
  rw [List.mem_reverse] at h2
  exact (List.dropWhile_sublist isPySpace).subset h2

theorem pyStrip_idem (s : List Char) : pyStrip (pyStrip s) = pyStrip s := by
  unfold pyStrip
  -- the inner strip has no leading white-space, being a non-empty
  -- stripped list shares its head with the dropWhile result
  have hfront :
      (((((s.dropWhile isPySpace).reverse).dropWhile isPySpace).reverse).dropWhile isPySpace)
        = ((((s.dropWhile isPySpace).reverse).dropWhile isPySpace).reverse) := by
    cases h : ((((s.dropWhile isPySpace).reverse).dropWhile isPySpace).reverse) with
    | nil => simp
    | cons a t =>
        -- a ∈ head of a list whose reverse is a suffix of the reverse of
        -- dropWhile isPySpace s, hence it is the head of that dropWhile
        have hpre : (a :: t) <+: s.dropWhile isPySpace := by
          rw [← h]
          rw [← List.reverse_suffix]
          simp only [List.reverse_reverse]
          exact List.dropWhile_suffix isPySpace
        obtain ⟨u, hu⟩ := hpre
        have ha : isPySpace a = false := by
          apply dropWhile_head_false isPySpace s
          rw [← hu, List.cons_append]
        simp [List.dropWhile_cons, ha]
  rw [hfront]
  simp only [List.reverse_reverse]
  rw [dropWhile_idem]

theorem pyStrip_all_mem {s : List Char} {P : Char → Prop}
    (h : ∀ c ∈ s, P c) : ∀ c ∈ pyStrip s, P c :=
  fun c hc => h c (mem_pyStrip hc)

theorem stripLeadingNumParen_of_no_paren {s : List Char}
    (h : ')' ∉ s) : stripLeadingNumParen s = s := by
  unfold stripLeadingNumParen
  cases hd : s.dropWhile Char.isDigit with
  | nil => simp
  | cons a t =>
      by_cases ha : a = ')'
      · subst ha
        exfalso
        exact h ((List.dropWhile_sublist Char.isDigit).subset (by rw [hd]; simp))
      · simp [ha]

theorem cleanChars_all_allowed (s : List Char) :
    ∀ c ∈ cleanChars s, allowedChar c = true := by
  unfold cleanChars
  intro c hc
  have := mem_pyStrip hc
  exact (List.mem_filter.mp this).2

theorem cleanChars_idem (s : List Char) : cleanChars (cleanChars s) = cleanChars s := by
  have hall : ∀ c ∈ cleanChars s, allowedChar c = true := cleanChars_all_allowed s
  have hstrip : pyStrip (cleanChars s) = cleanChars s := by
    unfold cleanChars
    exact pyStrip_idem _
  have hparen : stripLeadingNumParen (cleanChars s) = cleanChars s := by
    apply stripLeadingNumParen_of_no_paren
    intro hmem
    have := hall ')' hmem
    simp [allowedChar] at this
  have hfilter : (cleanChars s).filter allowedChar = cleanChars s :=
    List.filter_eq_self.mpr hall
  show pyStrip ((stripLeadingNumParen (pyStrip (cleanChars s))).filter allowedChar)
      = cleanChars s
  rw [hstrip, hparen, hfilter, hstrip]

/-! ## Metadata extraction (`get_node`, `get_authors`) -/

/-- `get_node`: the text values of the matched nodes, keeping only truthy
ones (`[n.text for n in nodes if n.text]` drops `None` and empty strings).
The xpath query itself is external I/O; the raw node texts (`none` models a
node with no text, i.e. Python `None`) are passed in. -/
def get_node (texts : List (Option (List Char))) : List (List Char) :=
  texts.filterMap fun t =>
    match t with
    | some s => if s = [] then none else some s
    | none => none

/-- `itertools.zip_longest` with the default fill value `None`. -/
def zip_longest : List α → List β → List (Option α × Option β)
  | [], bs => bs.map fun b => (none, some b)
  | a :: as, bs =>
      match bs with
      | [] => (some a, none) :: zip_longest as []
      | b :: bs2 => (some a, some b) :: zip_longest as bs2

/-- `get_authors`: zip the last-name values with the first-name values,
keep the pairs where both are truthy (present and non-empty), and emit
the string `last ++ " " ++ first` for each. -/
def get_authors (lasts firsts : List (List Char)) : List (List Char) :=
  (zip_longest lasts firsts).filterMap fun p =>
    match p with
    | (some l, some f) => if f = [] || l = [] then none else some (l ++ ' ' :: f)
    | _ => none

/-! ## Glob matching (`fnmatch.fnmatch`) and the pattern resolver -/

/-- Split a character-class body at the first closing bracket:
`splitOnRBrack l = some (content, rest)` when `l = content ++ ']' :: rest`
with no `']'` inside `content`; `none` when `l` has no `']'`. -/
def splitOnRBrack : List Char → Option (List Char × List Char)
  | [] => none
  | c :: t =>
      if c = ']' then some ([], t)
      else (splitOnRBrack t).map fun p => (c :: p.1, p.2)

/-- Scan a class body after the optional `'!'`: a `']'` in the very first
position is part of the body, as in `fnmatch.translate`. -/
def splitBracketAux (s : List Char) : Option (List Char × List Char) :=
  match s with
  | [] => none
  | c :: t =>
      if c = ']' then (splitOnRBrack t).map fun q => (']' :: q.1, q.2)
      else splitOnRBrack (c :: t)

/-- Parse the remainder of a glob pattern after an opening `'['` the way
`fnmatch.translate` scans it: an optional leading `'!'` negates; a `']'`
immediately after that is part of the class body; if no closing `']'`
follows, the whole class is abandoned and `'['` is a literal (`none`). -/
def splitBracket (p : List Char) : Option (Bool × List Char × List Char) :=
  match p with
  | [] => none
  | c :: t =>
      if c = '!' then (splitBracketAux t).map fun q => (true, q.1, q.2)
      else (splitBracketAux (c :: t)).map fun q => (false, q.1, q.2)

/-- Does character `c` match a class body?  `x-y` spans a code-point range
(a leading or trailing `'-'` is a literal, as in a regex class). -/
def matchClassChars (c : Char) : List Char → Bool
  | a :: '-' :: b :: rest => (a ≤ c && c ≤ b) || matchClassChars c rest
  | a :: rest => decide (c = a) || matchClassChars c rest
  | [] => false

/-- One token of the regex `fnmatch.translate` produces: a literal
character, `'*'` (matching any run of characters, `'/'` included), `'?'`
(any one character), or a character class with a negation flag. -/
inductive GlobTok where
  | lit : Char → GlobTok
  | star : GlobTok
  | qmark : GlobTok
  | cls : Bool → List Char → GlobTok
deriving DecidableEq

theorem splitOnRBrack_length : ∀ (l : List Char) (a b : List Char),
    splitOnRBrack l = some (a, b) → b.length < l.length := by
  intro l
  induction l with
  | nil => intro a b h; simp [splitOnRBrack] at h
  | cons c t ih =>
      intro a b h
      unfold splitOnRBrack at h
      by_cases hc : c = ']'
      · rw [if_pos hc] at h
        injection h with h
        injection h with h1 h2
        subst h2
        simp
      · rw [if_neg hc, Option.map_eq_some'] at h
        obtain ⟨⟨a1, b1⟩, hq, heq⟩ := h
        injection heq with h1 h2
        subst h2
        have := ih a1 b1 hq
        simp
        omega

theorem splitBracketAux_length (s : List Char) (a b : List Char)
    (h : splitBracketAux s = some (a, b)) : b.length < s.length := by
  cases s with
  | nil => simp [splitBracketAux] at h
  | cons c t =>
      simp only [splitBracketAux] at h
      by_cases hc : c = ']'
      · rw [if_pos hc, Option.map_eq_some'] at h
        obtain ⟨⟨a1, b1⟩, hq, heq⟩ := h
        injection heq with h1 h2
        subst h2
        have := splitOnRBrack_length t a1 b1 hq
        simp
        omega
      · rw [if_neg hc] at h
        exact splitOnRBrack_length (c :: t) a b h

theorem splitBracket_length (p : List Char) (ng : Bool) (a b : List Char)
    (h : splitBracket p = some (ng, a, b)) : b.length < p.length := by
  cases p with
  | nil => simp [splitBracket] at h
  | cons c t =>
      simp only [splitBracket] at h
      by_cases hc : c = '!'
      · rw [if_pos hc, Option.map_eq_some'] at h
        obtain ⟨⟨a1, b1⟩, hq, heq⟩ := h
        injection heq with h1 h2
        injection h2 with h2 h3
        subst h3
        have := splitBracketAux_length t a1 b1 hq
        simp
        omega
      · rw [if_neg hc, Option.map_eq_some'] at h
        obtain ⟨⟨a1, b1⟩, hq, heq⟩ := h
        injection heq with h1 h2
        injection h2 with h2 h3
        subst h3
        exact splitBracketAux_length (c :: t) a1 b1 hq

/-- Translate a glob pattern into its token list, following
`fnmatch.translate`.  The recursion is driven by a fuel counter so that the
kernel can evaluate it; by `splitBracket_length` every recursive call is on
a strictly shorter list, so fuel equal to the pattern length (the invariant
`length ≤ fuel` holds at every call) is never exhausted: the `0` case is
reached only with the empty pattern, whose token list is `[]`. -/
def tokenizeFuel (fuel : Nat) (l : List Char) : List GlobTok :=
  match fuel, l with
  | _, [] => []
  | 0, _ :: _ => []
  | fuel + 1, c :: p =>
      if c = '*' then GlobTok.star :: tokenizeFuel fuel p
      else if c = '?' then GlobTok.qmark :: tokenizeFuel fuel p
      else if c = '[' then
        match splitBracket p with
        | none => GlobTok.lit '[' :: tokenizeFuel fuel p
        | some q => GlobTok.cls q.1 q.2.1 :: tokenizeFuel fuel q.2.2
      else GlobTok.lit c :: tokenizeFuel fuel p

def tokenize (l : List Char) : List GlobTok :=
  tokenizeFuel l.length l

/-- Match a token list against a string, anchored at both ends
(`fnmatch` wraps the translated regex in a full match).  Every recursive
call shrinks the token list or the string, so fuel equal to the sum of
their lengths is never exhausted: the `0` case is reached only with both
empty, where the match succeeds. -/
def matchToksFuel (fuel : Nat) (p : List GlobTok) (s : List Char) : Bool :=
  match fuel with
  | 0 =>
      (match p, s with
       | [], [] => true
       | _, _ => false)
  | fuel + 1 =>
      match p, s with
      | [], s => decide (s = [])
      | GlobTok.star :: p, s =>
          matchToksFuel fuel p s ||
            (match s with
             | [] => false
             | _ :: s2 => matchToksFuel fuel (GlobTok.star :: p) s2)
      | GlobTok.qmark :: p, s =>
          (match s with
           | [] => false
           | _ :: s2 => matchToksFuel fuel p s2)
      | GlobTok.lit a :: p, s =>
          (match s with
           | [] => false
           | c :: s2 => decide (c = a) && matchToksFuel fuel p s2)
      | GlobTok.cls ng cc :: p, s =>
          (match s with
           | [] => false
           | c :: s2 => (ng != matchClassChars c cc) && matchToksFuel fuel p s2)

def matchToks (p : List GlobTok) (s : List Char) : Bool :=
  matchToksFuel (p.length + s.length) p s

/-- `fnmatch.fnmatch(name, pat)`: both sides go through `os.path.normcase`,
which is the identity on POSIX; the comparison is a full match of the
translated pattern. -/
def fnmatch (nm pat : String) : Bool :=
  matchToks (tokenize pat.data) nm.data

/-- `get_pattern`: first rule whose glob pattern matches `relpath` wins;
the default naming template is returned when no rule matches.  The
`config` dictionary is modelled by its `"patterns"` list. -/
def get_pattern (relpath : String) (patterns : List (String × String)) : String :=
  match patterns with
  | [] => "{author} - {title}"
  | (path_pattern, name_pattern) :: rest =>
      if fnmatch relpath path_pattern then name_pattern
      else get_pattern relpath rest

/-! ## File descriptor builder (`file_info`) -/

/-- `pattern.format(author=..., title=...)` on the naming templates in use:
the literal placeholders are substituted, everything else is copied.
(Templates containing any other replacement field would raise in Python;
the configuration contract only admits these two placeholders.) -/
def format_pattern (author title : List Char) : List Char → List Char
  | '{' :: 'a' :: 'u' :: 't' :: 'h' :: 'o' :: 'r' :: '}' :: rest =>
      author ++ format_pattern author title rest
  | '{' :: 't' :: 'i' :: 't' :: 'l' :: 'e' :: '}' :: rest =>
      title ++ format_pattern author title rest
  | c :: rest => c :: format_pattern author title rest
  | [] => []

/-- The data `file_info` reads from a successfully parsed document.  The
xpath queries of `get_node` start with `//`, so they are evaluated from the
document root; the `title-info` lookup only checks that such a block exists
(`[0]` fails otherwise).  The raw node texts are listed in document order,
`none` standing for a node whose `text` is Python `None`. -/
structure Fb2Doc where
  hasTitleInfo : Bool
  bookTitleTexts : List (Option (List Char))
  lastNameTexts : List (Option (List Char))
  firstNameTexts : List (Option (List Char))
deriving DecidableEq

/-- Outcome of `etree.parse`: an `XMLSyntaxError` with its message, or a
well-formed document. -/
inductive ParseResult where
  | failure : List Char → ParseResult
  | success : Fb2Doc → ParseResult
deriving DecidableEq

/-- The per-file record returned by `file_info`.  `name = none` models a
dictionary without the `'name'` key; `broken = none` models `None`. -/
structure FileRecord where
  name : Option (List Char)
  path : String
  broken : Option (List Char)
deriving DecidableEq

/-- `file_info(path, pattern)`.  The result is `none` when the code would
raise an uncaught `IndexError` (well-formed document with no
`description/title-info` block — the unhandled precondition of the spec).
The `modified` flag is computed by the source but unused; it is omitted. -/
def file_info (path : String) (pattern : List Char) (pr : ParseResult) :
    Option FileRecord :=
  match pr with
  | ParseResult.failure e => some { name := none, path := path, broken := some e }
  | ParseResult.success doc =>
      if doc.hasTitleInfo then
        let titles_raw := get_node doc.bookTitleTexts
        let title := (clean_string_list titles_raw).1
        let authors_raw := get_authors (get_node doc.lastNameTexts)
                              (get_node doc.firstNameTexts)
        let author := (clean_string_list authors_raw).1
        let new_name := format_pattern author title pattern
        some { name := some new_name, path := path,
               broken := if new_name = [] then some ("empty name".data) else none }
      else none

/-! ## Directory traversal (`get_files`, `MAX_PATH_DEPTH`) -/

def MAX_PATH_DEPTH : Nat := 128

/-- Does the first list start with the second?  (Used for the
`.endswith('.fb2')` test below.) -/
def leadMatch : List Char → List Char → Bool
  | _, [] => true
  | [], _ :: _ => false
  | a :: as, b :: bs => decide (a = b) && leadMatch as bs

/-- Python `s.endswith(suffix)`. -/
def strEndsWith (s suffix : String) : Bool :=
  leadMatch s.data.reverse suffix.data.reverse

/-- `os.path.join` for the joins the script performs: the second component
is never absolute, and `os.path.join('', b) = b` while
`os.path.join(a, '') = a ++ "/"` for non-empty `a`. -/
def pjoin (a b : String) : String :=
  if a = "" then b else a ++ "/" ++ b

mutual

/-- A directory tree node: a plain file, or a directory with entries in
`os.listdir` order.  The name of an entry is carried by the parent forest,
as in the recursion of `get_files`. -/
inductive FSTree where
  | file : FSTree
  | dir : FSForest → FSTree

/-- The named entries of a directory. -/
inductive FSForest where
  | nil : FSForest
  | cons : String → FSTree → FSForest → FSForest

end

mutual

/-- `get_files(root, relpath, file_name, depth)`.  The tree node standing at
`os.path.join(root, relpath, file_name)` is passed alongside, replacing the
`os.path.isfile` / `os.path.isdir` / `os.listdir` probes.  The generator is
modelled eagerly: the collected triples in yield order, or the
`Too deep path` error the first exhausted branch raises. -/
def get_files (root : String) (e : FSTree) (relpath fname : String)
    (depth : Nat) : Except String (List (String × String × String)) :=
  if MAX_PATH_DEPTH ≤ depth then Except.error ("Too deep path " ++ relpath)
  else
    match e with
    | FSTree.file =>
        let full_path := if relpath = "" then root else pjoin root relpath
        let full_file_path := pjoin full_path fname
        Except.ok (if strEndsWith full_file_path ".fb2" then
          [(relpath, full_path, full_file_path)] else [])
    | FSTree.dir entries =>
        get_files_list root entries (pjoin relpath fname) depth

/-- The `for fname in os.listdir(...)` loop: each entry is traversed at
`depth + 1` (via `yield from`), results concatenated in order; an exception
in a child aborts the whole iteration. -/
def get_files_list (root : String) (es : FSForest) (relpath : String)
    (depth : Nat) : Except String (List (String × String × String)) :=
  match es with
  | FSForest.nil => Except.ok []
  | FSForest.cons n c rest =>
      match get_files root c relpath n (depth + 1) with
      | Except.error e => Except.error e
      | Except.ok r =>
          match get_files_list root rest relpath depth with
          | Except.error e => Except.error e
          | Except.ok rs => Except.ok (r ++ rs)

end

mutual

/-- The nesting height of a tree as seen by the depth counter: a file and an
empty directory add nothing below themselves; a non-empty directory adds one
level per entry step. -/
def heightT : FSTree → Nat
  | FSTree.file => 0
  | FSTree.dir es => heightForest es

/-- Height of a directory's entry list: the largest entry height plus the
one step taken to reach the entries. -/
def heightForest : FSForest → Nat
  | FSForest.nil => 0
  | FSForest.cons _ c rest => max (1 + heightT c) (heightForest rest)

end

/-! ## Orchestrator per-file step (`main` loop body) -/

/-- An observable action of one iteration of the `main` loop. -/
inductive Action where
  | printRow : FileRecord → Action
  | printDiff : String → String → Action
  | rename : String → String → Action
deriving DecidableEq

/-- The body of the `main` loop for one yielded file, given the built
record: broken records are printed and skipped; otherwise the new path is
joined and either a diff line is printed (dry-run, only when the path
changes) or `os.rename` is invoked. -/
def mainStep (dryRun : Bool) (full_path full_file_path : String)
    (row : FileRecord) : List Action :=
  match row.broken with
  | some _ => [Action.printRow row]
  | none =>
      let new_path := pjoin full_path (String.mk (row.name.getD [])) ++ ".fb2"
      if dryRun then
        if full_file_path ≠ new_path then [Action.printDiff full_file_path new_path]
        else []
      else
        [Action.rename full_file_path new_path]

/-! ## Helper lemmas shared by the claim theorems -/

theorem get_authors_nil_left : ∀ (fs : List (List Char)), get_authors [] fs = [] := by
  intro fs
  induction fs with
  | nil => rfl
  | cons b bs ih => simp [get_authors, zip_longest, List.filterMap_cons]

theorem get_authors_nil_right : ∀ (ls : List (List Char)), get_authors ls [] = [] := by
  intro ls
  induction ls with
  | nil => rfl
  | cons a as ih => simpa [get_authors, zip_longest, List.filterMap_cons] using ih

/-- The zip-longest-then-drop form of `get_authors` coincides with a plain
truncating zip: a padded pair always has a missing side and is dropped. -/
theorem get_authors_eq_zip (lasts firsts : List (List Char)) :
    get_authors lasts firsts
      = (lasts.zip firsts).filterMap fun p =>
          if p.1 ≠ [] ∧ p.2 ≠ [] then some (p.1 ++ ' ' :: p.2) else none := by
  induction lasts generalizing firsts with
  | nil => simp [get_authors_nil_left]
  | cons l ls ih =>
      cases firsts with
      | nil => simp [get_authors_nil_right]
      | cons f fs =>
          have hstep :
              get_authors (l :: ls) (f :: fs)
                = (if f = [] ∨ l = [] then [] else [l ++ ' ' :: f]) ++ get_authors ls fs := by
            simp only [get_authors, zip_longest, List.filterMap_cons]
            by_cases hf : f = []
            · simp [hf]
            · by_cases hl : l = []
              · simp [hf, hl]
              · simp [hf, hl]
          rw [hstep, ih]
          by_cases hf : f = []
          · simp [hf]
          · by_cases hl : l = []
            · simp [hf, hl]
            · simp [hf, hl]

/-! ## Claim theorems -/

/-- C1: for every relative path and every ordered rule list, `get_pattern`
returns the naming template of the first rule whose glob pattern matches the
path (rules tried in order, `fnmatch` shell-style glob semantics), and the
default template `"{author} - {title}"` when no rule matches, in particular
for the empty rule list. -/
theorem pattern_resolver_first_match (relpath : String)
    (rules : List (String × String)) :
    get_pattern relpath rules
      = ((rules.find? fun r => fnmatch relpath r.1).map Prod.snd).getD
          "{author} - {title}" := by
  induction rules with
  | nil => rfl
  | cons r rest ih =>
      obtain ⟨pp, np⟩ := r
      by_cases h : fnmatch relpath pp = true
      · simp [get_pattern, List.find?_cons, h]
      · simp [get_pattern, List.find?_cons, h, ih]

/-- C4: `get_authors` pairwise-zips the last-name and first-name sequences
padding the shorter with absent values, emits `"last first"` exactly for the
pairs with both sides present and non-empty, drops the others, and keeps
the order — equivalently, it is a truncating zip filtered to non-empty
pairs; on last-names `["Doe", "Roe"]` and first-names `["Jane"]` it yields
exactly `["Doe Jane"]`. -/
theorem author_pairing :
    (∀ (lasts firsts : List (List Char)),
        get_authors lasts firsts
          = (lasts.zip firsts).filterMap fun p =>
              if p.1 ≠ [] ∧ p.2 ≠ [] then some (p.1 ++ ' ' :: p.2) else none) ∧
    get_authors ["Doe".data, "Roe".data] ["Jane".data] = ["Doe Jane".data] :=
  ⟨get_authors_eq_zip, by decide⟩

/-- C5: the sanitizer is idempotent on its cleaned component:
cleaning the cleaned output changes nothing. -/
theorem sanitizer_idempotent (x : List Char) :
    (clean_string (clean_string x).1).1 = (clean_string x).1 := by
  by_cases hx : x = []
  · subst hx; rfl
  · have h1 : (clean_string x).1 = cleanChars x := by simp [clean_string, hx]
    rw [h1]
    by_cases hc : cleanChars x = []
    · rw [hc]; rfl
    · simp [clean_string, hc, cleanChars_idem]

/-- C6: every character of the sanitizer's cleaned output (string or list
input form) is in the allow-list: Cyrillic or Latin letters, digits, space,
period, comma, hyphen. -/
theorem sanitizer_allowlist :
    (∀ (x : List Char), ∀ c ∈ (clean_string x).1, allowedChar c = true) ∧
    (∀ (l : List (List Char)), ∀ c ∈ (clean_string_list l).1, allowedChar c = true) := by
  constructor
  · intro x c hc
    by_cases hx : x = []
    · subst hx; simp [clean_string] at hc
    · rw [show (clean_string x).1 = cleanChars x from by simp [clean_string, hx]] at hc
      exact cleanChars_all_allowed x c hc
  · intro l c hc
    cases l with
    | nil => simp [clean_string_list] at hc
    | cons t rest => exact cleanChars_all_allowed t c hc

/-- Witness for C6 at a concrete input: cleaning `"3) The Title!"` keeps
the letter `T`, which the allow-list admits. -/
theorem sanitizer_allowlist_witness :
    ('T' ∈ (clean_string "3) The Title!".data).1) ∧ allowedChar 'T' = true :=
  ⟨by decide, sanitizer_allowlist.1 "3) The Title!".data 'T' (by decide)⟩

/-- C7 counterexample: for an absent or empty raw collection the sanitizer
returns a changed-flag of `false`, not `true` as claimed — in both the
list-argument and string-argument forms. -/
theorem sanitizer_changed_flag_empty_counterexample :
    (clean_string_list ([] : List (List Char))).2 = false ∧
    (clean_string ([] : List Char)).2 = false :=
  ⟨rfl, rfl⟩

/-- C7 amended: for an absent or empty raw collection the changed-flag is
`false`; the flag is `true` exactly when the collection is non-empty and
cleaning altered its first element. -/
theorem sanitizer_changed_flag (l : List (List Char)) :
    (clean_string_list l).2 = true ↔
      ∃ s rest, l = s :: rest ∧ s ≠ cleanChars s := by
  cases l with
  | nil => simp [clean_string_list]
  | cons s rest =>
      simp only [clean_string_list, decide_eq_true_eq]
      constructor
      · intro h
        exact ⟨s, rest, rfl, h⟩
      · rintro ⟨s2, r2, heq, hne⟩
        injection heq with h1 h2
        subst h1
        exact hne

/-- C2: `file_info` returns a record with `broken` set (to the syntax
error) and `name` unset exactly for a document that is not well-formed XML;
for every successfully parsed file that yields a record, `name` is set and
`broken = some "empty name"` exactly when the computed new name is empty,
`broken` absent otherwise. -/
theorem broken_detection :
    (∀ (path : String) (pat : List Char) (e : List Char),
        file_info path pat (ParseResult.failure e)
          = some { name := none, path := path, broken := some e }) ∧
    (∀ (path : String) (pat : List Char) (doc : Fb2Doc) (r : FileRecord),
        file_info path pat (ParseResult.success doc) = some r →
          r.name ≠ none ∧
          (r.broken = some ("empty name".data) ↔ r.name = some []) ∧
          (r.broken = none ↔ r.name ≠ some [])) := by
  refine ⟨fun path pat e => rfl, fun path pat doc r h => ?_⟩
  unfold file_info at h
  dsimp only at h
  by_cases hd : doc.hasTitleInfo = true
  · rw [if_pos hd] at h
    simp only [Option.some.injEq] at h
    subst h
    by_cases hn : format_pattern
        (clean_string_list (get_authors (get_node doc.lastNameTexts)
          (get_node doc.firstNameTexts))).1
        (clean_string_list (get_node doc.bookTitleTexts)).1 pat = []
    · simp [hn]
    · simp [hn]
  · rw [if_neg hd] at h
    simp at h

/-- Witness for C2 at a concrete parsed document with one title and one
author: the record has a name and no broken marker. -/
theorem broken_detection_witness :
    ({ name := some ("Doe Jane - T".data), path := "b.fb2",
       broken := none } : FileRecord).name ≠ none ∧
    (({ name := some ("Doe Jane - T".data), path := "b.fb2",
        broken := none } : FileRecord).broken = some ("empty name".data) ↔
      ({ name := some ("Doe Jane - T".data), path := "b.fb2",
         broken := none } : FileRecord).name = some []) ∧
    (({ name := some ("Doe Jane - T".data), path := "b.fb2",
        broken := none } : FileRecord).broken = none ↔
      ({ name := some ("Doe Jane - T".data), path := "b.fb2",
         broken := none } : FileRecord).name ≠ some []) :=
  broken_detection.2 "b.fb2" ("{author} - {title}".data)
    ⟨true, [some ("T".data)], [some ("Doe".data)], [some ("Jane".data)]⟩
    { name := some ("Doe Jane - T".data), path := "b.fb2", broken := none }
    (by decide)

/-- C3 counterexample: for a processed file whose computed new full path
equals its old full path, rename mode still performs the `os.rename` call
(on identical paths), contradicting the claim that no rename is performed
in either mode. -/
theorem noop_rename_counterexample :
    (pjoin "/r" "b" ++ ".fb2" = "/r/b.fb2") ∧
    mainStep false "/r" "/r/b.fb2"
        { name := some ("b".data), path := "/r/b.fb2", broken := none }
      = [Action.rename "/r/b.fb2" "/r/b.fb2"] ∧
    Action.rename "/r/b.fb2" "/r/b.fb2"
      ∈ mainStep false "/r" "/r/b.fb2"
          { name := some ("b".data), path := "/r/b.fb2", broken := none } :=
  ⟨rfl, rfl, by decide⟩

/-- C3 amended: for a non-broken record, in dry-run mode no diff line is
printed when the computed new full path equals the old one (and nothing
else happens); in rename mode the `os.rename` call is issued
unconditionally — when the paths are equal it renames the file onto its own
path, a filesystem no-op, but the call itself is not skipped. -/
theorem rename_step_behavior (dry : Bool) (fp ffp : String)
    (row : FileRecord) (nm : List Char)
    (hb : row.broken = none) (hn : row.name = some nm) :
    (dry = true → ffp = pjoin fp (String.mk nm) ++ ".fb2" →
        mainStep dry fp ffp row = []) ∧
    (dry = false →
        mainStep dry fp ffp row
          = [Action.rename ffp (pjoin fp (String.mk nm) ++ ".fb2")]) := by
  constructor
  · rintro rfl rfl
    simp [mainStep, hb, hn]
  · rintro rfl
    simp [mainStep, hb, hn]

/-- Witness for C3 amended at a concrete no-op record: dry-run prints
nothing, rename mode still issues the call. -/
theorem rename_step_behavior_witness :
    (mainStep true "/r" (pjoin "/r" (String.mk ("b".data)) ++ ".fb2")
        { name := some ("b".data), path := "/r/b.fb2", broken := none } = []) ∧
    (mainStep false "/r" "/r/b.fb2"
        { name := some ("b".data), path := "/r/b.fb2", broken := none }
      = [Action.rename "/r/b.fb2" (pjoin "/r" (String.mk ("b".data)) ++ ".fb2")]) :=
  ⟨(rename_step_behavior true "/r" (pjoin "/r" (String.mk ("b".data)) ++ ".fb2")
      { name := some ("b".data), path := "/r/b.fb2", broken := none }
      ("b".data) rfl rfl).1 rfl rfl,
   (rename_step_behavior false "/r" "/r/b.fb2"
      { name := some ("b".data), path := "/r/b.fb2", broken := none }
      ("b".data) rfl rfl).2 rfl⟩

/-- Is an `Except` value an error? -/
def isError {ε α : Type} (x : Except ε α) : Bool :=
  match x with
  | Except.error _ => true
  | Except.ok _ => false

@[simp] theorem isError_error {ε α : Type} (e : ε) :
    isError (Except.error e : Except ε α) = true := rfl

@[simp] theorem isError_ok {ε α : Type} (a : α) :
    isError (Except.ok a : Except ε α) = false := rfl

mutual

theorem get_files_error_iff (root : String) (t : FSTree) :
    ∀ (rel fn : String) (d : Nat),
      isError (get_files root t rel fn d) = true ↔
        MAX_PATH_DEPTH ≤ d + heightT t := by
  intro rel fn d
  unfold get_files
  by_cases hd : MAX_PATH_DEPTH ≤ d
  · rw [if_pos hd]
    simp only [isError, true_iff]
    cases t with
    | file => simp [heightT]; omega
    | dir es => simp [heightT]; omega
  · rw [if_neg hd]
    cases t with
    | file =>
        simp only [heightT, isError]
        constructor
        · intro hfalse; exact absurd hfalse (by simp)
        · intro hle; omega
    | dir es =>
        have hq := get_files_list_error_iff root es (pjoin rel fn) d
        dsimp only
        rw [hq]
        simp only [heightT]
        omega

theorem get_files_list_error_iff (root : String) (es : FSForest) :
    ∀ (rel : String) (d : Nat),
      isError (get_files_list root es rel d) = true ↔
        (heightForest es ≠ 0 ∧ MAX_PATH_DEPTH ≤ d + heightForest es) := by
  intro rel d
  cases es with
  | nil => simp [get_files_list, isError, heightForest]
  | cons n c rest =>
      have hc := get_files_error_iff root c rel n (d + 1)
      have hr := get_files_list_error_iff root rest rel d
      have hm1 := Nat.le_max_left (1 + heightT c) (heightForest rest)
      have hm2 := Nat.le_max_right (1 + heightT c) (heightForest rest)
      have hm3 := max_choice (1 + heightT c) (heightForest rest)
      unfold get_files_list
      cases hx : get_files root c rel n (d + 1) with
      | error e =>
          rw [hx] at hc
          have hc2 : MAX_PATH_DEPTH ≤ d + 1 + heightT c := hc.mp rfl
          simp only [isError_error, eq_self_iff_true, true_iff]
          simp only [heightForest]
          omega
      | ok r =>
          rw [hx] at hc
          have hc2 : ¬ MAX_PATH_DEPTH ≤ d + 1 + heightT c := fun hp => by
            simpa using hc.mpr hp
          cases hy : get_files_list root rest rel d with
          | error e =>
              rw [hy] at hr
              have hr2 : heightForest rest ≠ 0 ∧
                  MAX_PATH_DEPTH ≤ d + heightForest rest := hr.mp rfl
              simp only [isError_error, eq_self_iff_true, true_iff]
              simp only [heightForest]
              omega
          | ok rs =>
              rw [hy] at hr
              have hr2 : ¬ (heightForest rest ≠ 0 ∧
                  MAX_PATH_DEPTH ≤ d + heightForest rest) := fun hp => by
                simpa using hr.mpr hp
              simp only [isError_ok, Bool.false_eq_true, false_iff]
              simp only [heightForest]
              omega

end

/-- C8: the traversal raises the `Too deep path` error for a tree exactly
when its nesting height reaches `MAX_PATH_DEPTH`: a tree nested at the
maximum allowed depth (`MAX_PATH_DEPTH - 1` levels below the root, the
deepest the counter admits) traverses cleanly, one level deeper errors;
in this eager model the error is the result of the whole traversal, i.e.
it aborts the run. -/
theorem depth_guard (root : String) (t : FSTree) :
    (∃ e, get_files root t "" "" 0 = Except.error e) ↔
      MAX_PATH_DEPTH ≤ heightT t := by
  have h := get_files_error_iff root t "" "" 0
  simp only [Nat.zero_add] at h
  rw [← h]
  constructor
  · rintro ⟨e, he⟩
    rw [he]
    rfl
  · intro hi
    cases hx : get_files root t "" "" 0 with
    | error e => exact ⟨e, rfl⟩
    | ok r => rw [hx] at hi; simp [isError] at hi

/-- A chain of directories `n` deep ending in a file, of height `n`. -/
def chain : Nat → FSTree
  | 0 => FSTree.file
  | n + 1 => FSTree.dir (FSForest.cons "d" (chain n) FSForest.nil)

set_option maxRecDepth 4000 in
/-- Witness for C8: a chain one level beyond the maximum allowed depth
makes the traversal error out. -/
theorem depth_guard_witness :
    ∃ e, get_files "/r" (chain MAX_PATH_DEPTH) "" "" 0 = Except.error e :=
  (depth_guard "/r" (chain MAX_PATH_DEPTH)).mpr (by decide)

/-- The directory tree of the C9 counterexample: the scan root contains a
directory `foo` holding the candidate file `bar.fb2`. -/
def t9 : FSTree :=
  FSTree.dir (FSForest.cons "foo"
    (FSTree.dir (FSForest.cons "bar.fb2" FSTree.file FSForest.nil)) FSForest.nil)

/-- C9 counterexample: for the file `foo/bar.fb2` under the scan root, the
traversal yields the relative path `"foo"` of the containing directory, and
`main` hands exactly that string to `get_pattern`; a rule whose glob is the
file's own root-relative path `"foo/bar.fb2"` therefore does not select,
while matching against the file's relative path would.  So the glob is not
matched against the file's path relative to the scan root. -/
theorem glob_target_counterexample :
    get_files "/r" t9 "" "" 0 = Except.ok [("foo", "/r/foo", "/r/foo/bar.fb2")] ∧
    pjoin "foo" "bar.fb2" = "foo/bar.fb2" ∧
    get_pattern "foo" [("foo/bar.fb2", "A")] = "{author} - {title}" ∧
    get_pattern "foo/bar.fb2" [("foo/bar.fb2", "A")] = "A" :=
  ⟨rfl, rfl, by decide, by decide⟩

mutual

theorem relpath_shape_tree (root : String) (t : FSTree) :
    ∀ (rel fn : String) (d : Nat) (res : List (String × String × String)),
      get_files root t rel fn d = Except.ok res →
        ∀ trip ∈ res,
          trip.2.1 = (if trip.1 = "" then root else pjoin root trip.1) ∧
          ∃ bn, trip.2.2 = pjoin trip.2.1 bn := by
  intro rel fn d res h trip htrip
  unfold get_files at h
  by_cases hd : MAX_PATH_DEPTH ≤ d
  · rw [if_pos hd] at h
    exact absurd h (by simp)
  · rw [if_neg hd] at h
    cases t with
    | file =>
        dsimp only at h
        by_cases hfb : strEndsWith
            (pjoin (if rel = "" then root else pjoin root rel) fn) ".fb2" = true
        · rw [if_pos hfb] at h
          injection h with h
          subst h
          simp only [List.mem_singleton] at htrip
          subst htrip
          exact ⟨rfl, fn, rfl⟩
        · rw [if_neg hfb] at h
          injection h with h
          subst h
          simp at htrip
    | dir es =>
        exact relpath_shape_forest root es (pjoin rel fn) d res h trip htrip

theorem relpath_shape_forest (root : String) (es : FSForest) :
    ∀ (rel : String) (d : Nat) (res : List (String × String × String)),
      get_files_list root es rel d = Except.ok res →
        ∀ trip ∈ res,
          trip.2.1 = (if trip.1 = "" then root else pjoin root trip.1) ∧
          ∃ bn, trip.2.2 = pjoin trip.2.1 bn := by
  intro rel d res h trip htrip
  cases es with
  | nil =>
      unfold get_files_list at h
      injection h with h
      subst h
      simp at htrip
  | cons n c rest =>
      unfold get_files_list at h
      cases hx : get_files root c rel n (d + 1) with
      | error e => rw [hx] at h; exact absurd h (by simp)
      | ok r =>
          rw [hx] at h
          cases hy : get_files_list root rest rel d with
          | error e => rw [hy] at h; exact absurd h (by simp)
          | ok rs =>
              rw [hy] at h
              injection h with h
              subst h
              rcases List.mem_append.mp htrip with hin | hin
              · exact relpath_shape_tree root c rel n (d + 1) r hx trip hin
              · exact relpath_shape_forest root rest rel d rs hy trip hin

end

/-- C9 amended: the string each rule's glob is matched against (the first
component of a yielded triple, which `main` passes to `get_pattern`) is the
path, relative to the scan root, of the file's containing directory — the
file's base name is joined on top of it to form the full file path, and is
not part of the matched string. -/
theorem glob_matched_against_dir_relpath (root : String) (t : FSTree)
    (res : List (String × String × String))
    (h : get_files root t "" "" 0 = Except.ok res) :
    ∀ trip ∈ res,
      trip.2.1 = (if trip.1 = "" then root else pjoin root trip.1) ∧
      ∃ bn, trip.2.2 = pjoin trip.2.1 bn :=
  relpath_shape_tree root t "" "" 0 res h

/-- Witness for C9 amended at the counterexample tree: the yielded triple
for `foo/bar.fb2` carries the directory path `"foo"`, and the full file
path is the directory joined with a base name. -/
theorem glob_matched_against_dir_relpath_witness :
    ("/r/foo" : String) = (if ("foo" : String) = "" then "/r" else pjoin "/r" "foo") ∧
    ∃ bn, ("/r/foo/bar.fb2" : String) = pjoin "/r/foo" bn :=
  glob_matched_against_dir_relpath "/r" t9 [("foo", "/r/foo", "/r/foo/bar.fb2")]
    rfl ("foo", "/r/foo", "/r/foo/bar.fb2") (by decide)

theorem get_node_ne_nil (xs : List (Option (List Char))) :
    ∀ s ∈ get_node xs, s ≠ [] := by
  intro s hs
  unfold get_node at hs
  obtain ⟨t, ht, hmap⟩ := List.mem_filterMap.mp hs
  cases t with
  | none => simp at hmap
  | some v =>
      dsimp only at hmap
      by_cases hv : v = []
      · simp [hv] at hmap
      · rw [if_neg hv] at hmap
        injection hmap with hmap
        subst hmap
        exact hv

theorem get_authors_length : ∀ (lasts firsts : List (List Char)),
    (∀ s ∈ lasts, s ≠ []) → (∀ s ∈ firsts, s ≠ []) →
    (get_authors lasts firsts).length = min lasts.length firsts.length := by
  intro lasts
  induction lasts with
  | nil => intro firsts h1 h2; simp [get_authors_nil_left]
  | cons l ls ih =>
      intro firsts hl hf
      cases firsts with
      | nil => simp [get_authors_nil_right]
      | cons f fs =>
          have hlne : l ≠ [] := hl l (by simp)
          have hfne : f ≠ [] := hf f (by simp)
          have hstep :
              get_authors (l :: ls) (f :: fs) = (l ++ ' ' :: f) :: get_authors ls fs := by
            simp only [get_authors, zip_longest, List.filterMap_cons]
            simp [hlne, hfne]
          rw [hstep]
          have hrec := ih fs (fun s hs => hl s (by simp [hs]))
            (fun s hs => hf s (by simp [hs]))
          simp only [List.length_cons, hrec]
          omega

theorem get_authors_mem_shape (lasts firsts : List (List Char)) :
    ∀ a ∈ get_authors lasts firsts,
      ∃ l f, l ∈ lasts ∧ f ∈ firsts ∧ l ≠ [] ∧ f ≠ [] ∧ a = l ++ ' ' :: f := by
  intro a ha
  rw [get_authors_eq_zip] at ha
  obtain ⟨⟨l, f⟩, hmem, hcond⟩ := List.mem_filterMap.mp ha
  by_cases hc : l ≠ [] ∧ f ≠ []
  · rw [if_pos hc] at hcond
    injection hcond with hcond
    have hz := List.of_mem_zip hmem
    exact ⟨l, f, hz.1, hz.2, hc.1, hc.2, hcond.symm⟩
  · rw [if_neg hc] at hcond
    simp at hcond

/-- C10: extraction stores only non-empty values, so the number of author
strings equals the minimum of the numbers of extracted last-name and
first-name values, and every emitted string is `"last first"` with both
parts non-empty. -/
theorem authors_from_extraction (xs ys : List (Option (List Char))) :
    (get_authors (get_node xs) (get_node ys)).length
        = min (get_node xs).length (get_node ys).length ∧
    ∀ a ∈ get_authors (get_node xs) (get_node ys),
      ∃ l f, l ∈ get_node xs ∧ f ∈ get_node ys ∧
        l ≠ [] ∧ f ≠ [] ∧ a = l ++ ' ' :: f :=
  ⟨get_authors_length (get_node xs) (get_node ys)
      (get_node_ne_nil xs) (get_node_ne_nil ys),
   fun a ha => get_authors_mem_shape (get_node xs) (get_node ys) a ha⟩

/-- Witness for C10 at concrete extracted texts: one kept last name (the
`none` and empty texts are dropped) pairs with the one first name. -/
theorem authors_from_extraction_witness :
    ((get_authors (get_node [some ("Doe".data), none, some []])
          (get_node [some ("Jane".data)])).length
        = min (get_node [some ("Doe".data), none, some []]).length
            (get_node [some ("Jane".data)]).length) ∧
    (∃ l f, l ∈ get_node [some ("Doe".data), none, some []] ∧
        f ∈ get_node [some ("Jane".data)] ∧
        l ≠ [] ∧ f ≠ [] ∧ "Doe Jane".data = l ++ ' ' :: f) :=
  ⟨(authors_from_extraction [some ("Doe".data), none, some []]
      [some ("Jane".data)]).1,
   (authors_from_extraction [some ("Doe".data), none, some []]
      [some ("Jane".data)]).2 ("Doe Jane".data) (by decide)⟩

end Fb2Rename
